import Mathlib

/-!
Verification of the Monkey-language lexer (src/src/lexer.rs).

The lexer is embedded shallowly: the peekable character iterator becomes a
`List Char` that is consumed from the front, `Iterator::next` becomes the
function `next : List Char → LexResult`, and the panic on integer overflow
(`num_str.parse::<u32>().expect("not a number")`) becomes the explicit
result `LexResult.panic`.  Repeated calls to `next` are folded into
`tokenize`, defined with a fuel argument (`input.length + 1` is always
enough fuel, which is proved below) so that it computes by kernel
reduction.
-/

set_option maxHeartbeats 1000000

namespace MonkeyLexer

/-- Mirrors `enum Token` from src/src/lexer.rs, including the declared but
never produced `EOF` variant.  `Int` carries the `u32` value as a `Nat`
(the lexer only ever builds values that fit in 32 bits, panicking
otherwise). -/
inductive Token where
  | Illegal
  | EOF
  | Ident (s : String)
  | Int (n : Nat)
  | Assign
  | Plus
  | Minus
  | Asterisk
  | Slash
  | GT
  | LT
  | Comma
  | Semicolon
  | LParen
  | RParen
  | LBrace
  | RBrace
  | Eq
  | NotEq
  | Function
  | Let
  | True
  | False
  | If
  | Else
  | Return
  deriving DecidableEq

/-- Mirrors `is_monkey_letter`: `c.is_ascii_alphabetic() || *c == '_'`.
Code points 65-90 are the ASCII uppercase letters, 97-122 the lowercase
ones, 95 is the underscore. -/
def is_monkey_letter (c : Char) : Bool :=
  (65 ≤ c.toNat && c.toNat ≤ 90) || (97 ≤ c.toNat && c.toNat ≤ 122) || c.toNat = 95

/-- Mirrors `is_monkey_digit`: `c.is_ascii_digit()`.  Code points 48-57 are
the ASCII digits. -/
def is_monkey_digit (c : Char) : Bool :=
  48 ≤ c.toNat && c.toNat ≤ 57

/-- Mirrors `is_monkey_whitespace`: `c.is_whitespace()`, i.e. Rust's
Unicode `White_Space` property: U+0009-U+000D, U+0020, U+0085, U+00A0,
U+1680, U+2000-U+200A, U+2028, U+2029, U+202F, U+205F and U+3000. -/
def is_monkey_whitespace (c : Char) : Bool :=
  (9 ≤ c.toNat && c.toNat ≤ 13) || c.toNat = 32 || c.toNat = 133 || c.toNat = 160 ||
    c.toNat = 5760 || (8192 ≤ c.toNat && c.toNat ≤ 8202) || c.toNat = 8232 ||
    c.toNat = 8233 || c.toNat = 8239 || c.toNat = 8287 || c.toNat = 12288

/-- Mirrors `parse_keyword`: the fixed keyword table. -/
def parse_keyword (s : String) : Option Token :=
  if s = "let" then some Token.Let
  else if s = "fn" then some Token.Function
  else if s = "true" then some Token.True
  else if s = "false" then some Token.False
  else if s = "if" then some Token.If
  else if s = "else" then some Token.Else
  else if s = "return" then some Token.Return
  else none

/-- Splits a list at the first element failing `test`: the loop body of
`accumulate_while` (peek, test, push, advance). -/
def takeWhileList (test : Char → Bool) : List Char → List Char × List Char
  | [] => ([], [])
  | c :: rest =>
    if test c then
      let p := takeWhileList test rest
      (c :: p.1, p.2)
    else ([], c :: rest)

/-- Mirrors `Lexer::accumulate_while`: starts from `start_with` and keeps
consuming characters of `input` while `test` holds, returning the
accumulated run together with the unconsumed remainder. -/
def accumulate_while (test : Char → Bool) (start_with : Char) (input : List Char) :
    List Char × List Char :=
  let p := takeWhileList test input
  (start_with :: p.1, p.2)

/-- Mirrors the whitespace-eating prologue of `Lexer::next`:
`let mut c = self.chars.next()?; while is_monkey_whitespace(&c) { c = self.chars.next()?; }`.
Returns the first non-whitespace character and the remainder, or `none`
when the input runs out first. -/
def skip_ws : List Char → Option (Char × List Char)
  | [] => none
  | c :: rest => if is_monkey_whitespace c then skip_ws rest else some (c, rest)

/-- Decimal value of a digit run, as computed by `num_str.parse::<u32>()`
on a string of ASCII digits (code point of a digit minus 48 is its value). -/
def digitsToNat (l : List Char) : Nat :=
  l.foldl (fun a c => a * 10 + (c.toNat - 48)) 0

/-- Largest value accepted by `u32`, the target type of the parse. -/
def U32_MAX : Nat := 4294967295

/-- Result of one `Lexer::next` call: a token plus the remaining input,
exhaustion (`None` in Rust), or the panic raised by
`.expect("not a number")` on integer overflow. -/
inductive LexResult where
  | eof
  | panic
  | tok (t : Token) (rest : List Char)
  deriving DecidableEq

/-- Mirrors the `match c { ... }` dispatch of `Lexer::next` after the
whitespace prologue: `c` is the consumed character and `r` the remaining
input (on which the Rust code peeks). -/
def emit (c : Char) (r : List Char) : LexResult :=
  if c = ';' then .tok Token.Semicolon r
  else if c = '(' then .tok Token.LParen r
  else if c = ')' then .tok Token.RParen r
  else if c = ',' then .tok Token.Comma r
  else if c = '+' then .tok Token.Plus r
  else if c = '-' then .tok Token.Minus r
  else if c = '*' then .tok Token.Asterisk r
  else if c = '/' then .tok Token.Slash r
  else if c = '>' then .tok Token.GT r
  else if c = '<' then .tok Token.LT r
  else if c = '\x7b' then .tok Token.LBrace r
  else if c = '\x7d' then .tok Token.RBrace r
  else if c = '=' then
    match r with
    | c2 :: r2 => if c2 = '=' then .tok Token.Eq r2 else .tok Token.Assign (c2 :: r2)
    | [] => .tok Token.Assign []
  else if c = '!' then
    match r with
    | c2 :: r2 => if c2 = '=' then .tok Token.NotEq r2 else .tok Token.Illegal (c2 :: r2)
    | [] => .tok Token.Illegal []
  else if is_monkey_letter c then
    let p := accumulate_while is_monkey_letter c r
    match parse_keyword (String.mk p.1) with
    | some k => .tok k p.2
    | none => .tok (Token.Ident (String.mk p.1)) p.2
  else if is_monkey_digit c then
    let p := accumulate_while is_monkey_digit c r
    if digitsToNat p.1 ≤ U32_MAX then .tok (Token.Int (digitsToNat p.1)) p.2
    else .panic
  else .tok Token.Illegal r

/-- Mirrors one full call of `Lexer::next`. -/
def next (input : List Char) : LexResult :=
  match skip_ws input with
  | none => .eof
  | some cr => emit cr.1 cr.2

/-- Repeated calls of `next`, with explicit fuel so the definition is
structural and computes by kernel reduction.  `some toks` is the token
sequence up to exhaustion, `none` means a panic was reached (fuel running
out also gives `none`, but `input.length + 1` fuel never runs out). -/
def tokenizeFuel : Nat → List Char → Option (List Token)
  | 0, _ => none
  | fuel + 1, input =>
    match next input with
    | .eof => some []
    | .panic => none
    | .tok t rest => Option.map (fun ts => t :: ts) (tokenizeFuel fuel rest)

/-- The full token sequence of an input (`some toks`), or `none` when the
scan panics on integer overflow. -/
def tokenize (input : List Char) : Option (List Token) :=
  tokenizeFuel (input.length + 1) input

/-- Tokenization of a whole string, as in `Lexer::new(input)` followed by
draining the iterator. -/
def lex (s : String) : Option (List Token) :=
  tokenize s.toList

/-- Every character of `l` is whitespace. -/
def allWs (l : List Char) : Prop :=
  ∀ c ∈ l, is_monkey_whitespace c = true

/-- Every character of `l` is a space, tab or newline. -/
def allSTN (l : List Char) : Prop :=
  ∀ c ∈ l, c = ' ' ∨ c = '\t' ∨ c = '\n'

instance allWs_decidable (l : List Char) : Decidable (allWs l) :=
  List.decidableBAll (fun c => is_monkey_whitespace c = true) l

instance allSTN_decidable (l : List Char) : Decidable (allSTN l) :=
  List.decidableBAll (fun c => c = ' ' ∨ c = '\t' ∨ c = '\n') l

/-- Compatibility of a replacement remainder `rest'` with the original
remainder `rest` at a token boundary: the lexer's decision to stop
consuming is preserved when the next character is unchanged or is
whitespace (or the input simply ends). -/
def stopOK (rest rest' : List Char) : Prop :=
  rest' = [] ∨ ∃ c t', rest' = c :: t' ∧
    (is_monkey_whitespace c = true ∨ rest.head? = some c)

/-- `padded input out` holds when `out` is `input` with runs of spaces,
tabs and newlines inserted before, between and after its tokens: each
`tok` step names the chunk of characters the lexer consumes for one token
and allows an inserted run in front of it. -/
inductive padded : List Char → List Char → Prop where
  | eof : ∀ input w, next input = .eof → allSTN w → padded input (w ++ input)
  | tok : ∀ input chunk t rest w rest', next input = .tok t rest →
      input = chunk ++ rest → allSTN w → padded rest rest' →
      padded input (w ++ (chunk ++ rest'))

theorem char_ne_of_toNat_ne (c d : Char) (h : c.toNat ≠ d.toNat) : c ≠ d :=
  fun he => h (by rw [he])

theorem letter_range (c : Char) (h : is_monkey_letter c = true) :
    65 ≤ c.toNat ∧ c.toNat ≤ 122 := by
  simp only [is_monkey_letter, Bool.or_eq_true, Bool.and_eq_true, decide_eq_true_eq] at h
  omega

theorem digit_range (c : Char) (h : is_monkey_digit c = true) :
    48 ≤ c.toNat ∧ c.toNat ≤ 57 := by
  simp only [is_monkey_digit, Bool.and_eq_true, decide_eq_true_eq] at h
  omega

theorem ws_not_letter (c : Char) (h : is_monkey_whitespace c = true) :
    is_monkey_letter c = false := by
  rw [Bool.eq_false_iff]
  intro hl
  simp only [is_monkey_whitespace, Bool.or_eq_true, Bool.and_eq_true, decide_eq_true_eq] at h
  have := letter_range c hl
  omega

theorem ws_not_digit (c : Char) (h : is_monkey_whitespace c = true) :
    is_monkey_digit c = false := by
  rw [Bool.eq_false_iff]
  intro hd
  simp only [is_monkey_whitespace, Bool.or_eq_true, Bool.and_eq_true, decide_eq_true_eq] at h
  have := digit_range c hd
  omega

theorem digit_not_letter (c : Char) (h : is_monkey_digit c = true) :
    is_monkey_letter c = false := by
  rw [Bool.eq_false_iff]
  intro hl
  have := digit_range c h
  have := letter_range c hl
  omega

theorem stn_ws (c : Char) (h : c = ' ' ∨ c = '\t' ∨ c = '\n') :
    is_monkey_whitespace c = true := by
  rcases h with rfl | rfl | rfl <;> decide

theorem allSTN_allWs (l : List Char) (h : allSTN l) : allWs l :=
  fun c hc => stn_ws c (h c hc)

theorem takeWhileList_decomp (test : Char → Bool) (l : List Char) :
    (takeWhileList test l).1 ++ (takeWhileList test l).2 = l := by
  induction l with
  | nil => rfl
  | cons c rest ih =>
    by_cases h : test c
    · simp [takeWhileList, h, ih]
    · simp [takeWhileList, h]

theorem takeWhileList_fst_all (test : Char → Bool) (l : List Char) :
    ∀ x ∈ (takeWhileList test l).1, test x = true := by
  induction l with
  | nil => intro x hx; simp [takeWhileList] at hx
  | cons c rest ih =>
    intro x hx
    by_cases h : test c
    · simp only [takeWhileList, if_pos h, List.mem_cons] at hx
      rcases hx with rfl | hx
      · exact h
      · exact ih x hx
    · simp [takeWhileList, h] at hx

theorem takeWhileList_snd_head (test : Char → Bool) (l : List Char) (c : Char)
    (t' : List Char) (h : (takeWhileList test l).2 = c :: t') : test c = false := by
  induction l with
  | nil => simp [takeWhileList] at h
  | cons x rest ih =>
    by_cases hx : test x
    · simp only [takeWhileList, if_pos hx] at h
      exact ih h
    · simp only [takeWhileList, if_neg hx] at h
      cases h
      exact Bool.eq_false_iff.mpr hx

theorem takeWhileList_of_spec (test : Char → Bool) (a r : List Char)
    (ha : ∀ x ∈ a, test x = true)
    (hr : ∀ c t', r = c :: t' → test c = false) :
    takeWhileList test (a ++ r) = (a, r) := by
  induction a with
  | nil =>
    cases r with
    | nil => rfl
    | cons c t' =>
      have := hr c t' rfl
      simp [takeWhileList, this]
  | cons x xs ih =>
    have hx : test x = true := ha x (by simp)
    have := ih (fun y hy => ha y (by simp [hy]))
    simp [takeWhileList, hx, this]

theorem takeWhileList_snd_length (test : Char → Bool) (l : List Char) :
    (takeWhileList test l).2.length ≤ l.length := by
  induction l with
  | nil => simp [takeWhileList]
  | cons c rest ih =>
    by_cases h : test c
    · simp only [takeWhileList, if_pos h]
      exact Nat.le_trans ih (by simp)
    · simp [takeWhileList, h]

theorem skip_ws_none_iff (l : List Char) : skip_ws l = none ↔ allWs l := by
  induction l with
  | nil => simp [skip_ws, allWs]
  | cons c rest ih =>
    by_cases h : is_monkey_whitespace c
    · simp only [skip_ws, if_pos h, ih, allWs, List.mem_cons]
      constructor
      · intro hall x hx
        rcases hx with rfl | hx
        · exact h
        · exact hall x hx
      · intro hall x hx
        exact hall x (Or.inr hx)
    · simp only [skip_ws, if_neg h, allWs]
      constructor
      · intro hh; cases hh
      · intro hall
        exact absurd (hall c (List.mem_cons_self c rest)) (by simpa using h)

theorem skip_ws_some (l : List Char) (c : Char) (r : List Char)
    (h : skip_ws l = some (c, r)) :
    (∃ w, allWs w ∧ l = w ++ c :: r) ∧ is_monkey_whitespace c = false := by
  induction l with
  | nil => simp [skip_ws] at h
  | cons x rest ih =>
    by_cases hx : is_monkey_whitespace x
    · simp only [skip_ws, if_pos hx] at h
      obtain ⟨⟨w, hw, hrest⟩, hc⟩ := ih h
      refine ⟨⟨x :: w, ?_, by simp [hrest]⟩, hc⟩
      intro y hy
      rcases List.mem_cons.mp hy with rfl | hy2
      · exact hx
      · exact hw y hy2
    · simp only [skip_ws, if_neg hx] at h
      cases h
      exact ⟨⟨[], by intro y hy; simp at hy, rfl⟩, Bool.eq_false_iff.mpr hx⟩

theorem skip_ws_append_ws (w l : List Char) (hw : allWs w) :
    skip_ws (w ++ l) = skip_ws l := by
  induction w with
  | nil => rfl
  | cons c rest ih =>
    have hc : is_monkey_whitespace c = true := hw c (by simp)
    simp only [List.cons_append, skip_ws, if_pos hc]
    exact ih (fun x hx => hw x (by simp [hx]))

theorem skip_ws_cons_not (c : Char) (r : List Char) (h : is_monkey_whitespace c = false) :
    skip_ws (c :: r) = some (c, r) := by
  simp [skip_ws, h]

theorem skip_ws_append (l b : List Char) (c : Char) (r : List Char)
    (h : skip_ws l = some (c, r)) : skip_ws (l ++ b) = some (c, r ++ b) := by
  induction l with
  | nil => simp [skip_ws] at h
  | cons x rest ih =>
    by_cases hx : is_monkey_whitespace x
    · simp only [skip_ws, if_pos hx] at h
      simp only [List.cons_append, skip_ws, if_pos hx]
      exact ih h
    · simp only [skip_ws, if_neg hx] at h
      cases h
      simp [skip_ws, hx]

theorem skip_ws_length (l : List Char) (c : Char) (r : List Char)
    (h : skip_ws l = some (c, r)) : r.length < l.length := by
  obtain ⟨⟨w, _, rfl⟩, _⟩ := skip_ws_some l c r h
  simp
  omega

theorem parse_keyword_shape (s : String) (k : Token) (h : parse_keyword s = some k) :
    k ≠ Token.EOF ∧ ∀ s', k ≠ Token.Ident s' := by
  simp only [parse_keyword] at h
  repeat' split at h
  all_goals cases h
  all_goals exact ⟨by simp, fun s' => by simp⟩

theorem emit_fallthrough (c : Char) (r : List Char)
    (h : (65 ≤ c.toNat ∧ c.toNat ≤ 122) ∨ (48 ≤ c.toNat ∧ c.toNat ≤ 57)) :
    emit c r =
      if is_monkey_letter c then
        match parse_keyword (String.mk (accumulate_while is_monkey_letter c r).1) with
        | some k => LexResult.tok k (accumulate_while is_monkey_letter c r).2
        | none => LexResult.tok
            (Token.Ident (String.mk (accumulate_while is_monkey_letter c r).1))
            (accumulate_while is_monkey_letter c r).2
      else if is_monkey_digit c then
        if digitsToNat (accumulate_while is_monkey_digit c r).1 ≤ U32_MAX then
          LexResult.tok (Token.Int (digitsToNat (accumulate_while is_monkey_digit c r).1))
            (accumulate_while is_monkey_digit c r).2
        else LexResult.panic
      else LexResult.tok Token.Illegal r := by
  have hne : ∀ d : Char, c.toNat ≠ d.toNat → c ≠ d := fun d hd he => hd (by rw [he])
  rw [emit.eq_def]
  rw [if_neg (hne ';' (by show c.toNat ≠ 59; omega))]
  rw [if_neg (hne '(' (by show c.toNat ≠ 40; omega))]
  rw [if_neg (hne ')' (by show c.toNat ≠ 41; omega))]
  rw [if_neg (hne ',' (by show c.toNat ≠ 44; omega))]
  rw [if_neg (hne '+' (by show c.toNat ≠ 43; omega))]
  rw [if_neg (hne '-' (by show c.toNat ≠ 45; omega))]
  rw [if_neg (hne '*' (by show c.toNat ≠ 42; omega))]
  rw [if_neg (hne '/' (by show c.toNat ≠ 47; omega))]
  rw [if_neg (hne '>' (by show c.toNat ≠ 62; omega))]
  rw [if_neg (hne '<' (by show c.toNat ≠ 60; omega))]
  rw [if_neg (hne '\x7b' (by show c.toNat ≠ 123; omega))]
  rw [if_neg (hne '\x7d' (by show c.toNat ≠ 125; omega))]
  rw [if_neg (hne '=' (by show c.toNat ≠ 61; omega))]
  rw [if_neg (hne '!' (by show c.toNat ≠ 33; omega))]

theorem emit_letter (c : Char) (r : List Char) (h : is_monkey_letter c = true) :
    emit c r =
      match parse_keyword (String.mk (accumulate_while is_monkey_letter c r).1) with
      | some k => LexResult.tok k (accumulate_while is_monkey_letter c r).2
      | none => LexResult.tok
          (Token.Ident (String.mk (accumulate_while is_monkey_letter c r).1))
          (accumulate_while is_monkey_letter c r).2 := by
  rw [emit_fallthrough c r (Or.inl (letter_range c h)), if_pos h]

theorem emit_digit (c : Char) (r : List Char) (h : is_monkey_digit c = true) :
    emit c r =
      (if digitsToNat (accumulate_while is_monkey_digit c r).1 ≤ U32_MAX then
        LexResult.tok (Token.Int (digitsToNat (accumulate_while is_monkey_digit c r).1))
          (accumulate_while is_monkey_digit c r).2
      else LexResult.panic) := by
  rw [emit_fallthrough c r (Or.inr (digit_range c h)),
    if_neg (by simp [digit_not_letter c h]), if_pos h]

theorem emit_other (c : Char) (r : List Char)
    (h1 : is_monkey_letter c = false) (h2 : is_monkey_digit c = false)
    (h3 : c ∉ [';', '(', ')', ',', '+', '-', '*', '/', '>', '<', '\x7b', '\x7d', '=', '!']) :
    emit c r = .tok Token.Illegal r := by
  simp only [List.mem_cons, List.not_mem_nil, or_false, not_or] at h3
  obtain ⟨n1, n2, n3, n4, n5, n6, n7, n8, n9, n10, n11, n12, n13, n14⟩ := h3
  rw [emit.eq_def, if_neg n1, if_neg n2, if_neg n3, if_neg n4, if_neg n5, if_neg n6, if_neg n7,
    if_neg n8, if_neg n9, if_neg n10, if_neg n11, if_neg n12, if_neg n13, if_neg n14,
    if_neg (by simp [h1]), if_neg (by simp [h2])]

theorem append_eq_nil_of_append_eq (mid rest : List Char) (h : mid ++ rest = rest) :
    mid = [] :=
  List.append_cancel_right (h.trans (List.nil_append rest).symm)

theorem emit_eq_cons (c2 : Char) (r2 : List Char) :
    emit '=' (c2 :: r2) =
      if c2 = '=' then LexResult.tok Token.Eq r2 else LexResult.tok Token.Assign (c2 :: r2) :=
  rfl

theorem emit_eq_nil : emit '=' [] = .tok Token.Assign [] := rfl

theorem emit_bang_cons (c2 : Char) (r2 : List Char) :
    emit '!' (c2 :: r2) =
      if c2 = '=' then LexResult.tok Token.NotEq r2
      else LexResult.tok Token.Illegal (c2 :: r2) :=
  rfl

theorem emit_bang_nil : emit '!' [] = .tok Token.Illegal [] := rfl

theorem emit_spec (c : Char) (r : List Char) :
    (∃ t, emit c r = .tok t r ∧ t ≠ Token.EOF ∧ ∀ s, t ≠ Token.Ident s) ∨
    (∃ t c2 r2, r = c2 :: r2 ∧ emit c r = .tok t r2 ∧ t ≠ Token.EOF ∧
      ∀ s, t ≠ Token.Ident s) ∨
    (∃ t, emit c r = .tok t (takeWhileList is_monkey_letter r).2 ∧ t ≠ Token.EOF ∧
      ∀ s, t = Token.Ident s → parse_keyword s = none) ∨
    (emit c r = .tok (Token.Int (digitsToNat (c :: (takeWhileList is_monkey_digit r).1)))
        (takeWhileList is_monkey_digit r).2 ∧
      digitsToNat (c :: (takeWhileList is_monkey_digit r).1) ≤ U32_MAX) ∨
    (emit c r = .panic ∧ is_monkey_digit c = true ∧
      U32_MAX < digitsToNat (c :: (takeWhileList is_monkey_digit r).1)) := by
  by_cases h1 : c = ';'
  · exact Or.inl ⟨Token.Semicolon, by rw [h1]; rfl, by simp, fun s => by simp⟩
  by_cases h2 : c = '('
  · exact Or.inl ⟨Token.LParen, by rw [h2]; rfl, by simp, fun s => by simp⟩
  by_cases h3 : c = ')'
  · exact Or.inl ⟨Token.RParen, by rw [h3]; rfl, by simp, fun s => by simp⟩
  by_cases h4 : c = ','
  · exact Or.inl ⟨Token.Comma, by rw [h4]; rfl, by simp, fun s => by simp⟩
  by_cases h5 : c = '+'
  · exact Or.inl ⟨Token.Plus, by rw [h5]; rfl, by simp, fun s => by simp⟩
  by_cases h6 : c = '-'
  · exact Or.inl ⟨Token.Minus, by rw [h6]; rfl, by simp, fun s => by simp⟩
  by_cases h7 : c = '*'
  · exact Or.inl ⟨Token.Asterisk, by rw [h7]; rfl, by simp, fun s => by simp⟩
  by_cases h8 : c = '/'
  · exact Or.inl ⟨Token.Slash, by rw [h8]; rfl, by simp, fun s => by simp⟩
  by_cases h9 : c = '>'
  · exact Or.inl ⟨Token.GT, by rw [h9]; rfl, by simp, fun s => by simp⟩
  by_cases h10 : c = '<'
  · exact Or.inl ⟨Token.LT, by rw [h10]; rfl, by simp, fun s => by simp⟩
  by_cases h11 : c = '\x7b'
  · exact Or.inl ⟨Token.LBrace, by rw [h11]; rfl, by simp, fun s => by simp⟩
  by_cases h12 : c = '\x7d'
  · exact Or.inl ⟨Token.RBrace, by rw [h12]; rfl, by simp, fun s => by simp⟩
  by_cases h13 : c = '='
  · subst h13
    cases r with
    | nil => exact Or.inl ⟨Token.Assign, rfl, by simp, fun s => by simp⟩
    | cons c2 r2 =>
      by_cases hc2 : c2 = '='
      · subst hc2
        exact Or.inr (Or.inl ⟨Token.Eq, '=', r2, rfl, rfl, by simp, fun s => by simp⟩)
      · exact Or.inl ⟨Token.Assign, by rw [emit_eq_cons, if_neg hc2], by simp,
          fun s => by simp⟩
  by_cases h14 : c = '!'
  · subst h14
    cases r with
    | nil => exact Or.inl ⟨Token.Illegal, rfl, by simp, fun s => by simp⟩
    | cons c2 r2 =>
      by_cases hc2 : c2 = '='
      · subst hc2
        exact Or.inr (Or.inl ⟨Token.NotEq, '=', r2, rfl, rfl, by simp, fun s => by simp⟩)
      · exact Or.inl ⟨Token.Illegal, by rw [emit_bang_cons, if_neg hc2], by simp,
          fun s => by simp⟩
  by_cases hl : is_monkey_letter c
  · cases hk : parse_keyword (String.mk (accumulate_while is_monkey_letter c r).1) with
    | some k =>
      refine Or.inr (Or.inr (Or.inl ⟨k, ?_, (parse_keyword_shape _ _ hk).1, ?_⟩))
      · rw [emit_letter c r hl, hk]
        rfl
      · exact fun s hs => absurd hs ((parse_keyword_shape _ _ hk).2 s)
    | none =>
      refine Or.inr (Or.inr (Or.inl
        ⟨Token.Ident (String.mk (accumulate_while is_monkey_letter c r).1), ?_, by simp, ?_⟩))
      · rw [emit_letter c r hl, hk]
        rfl
      · intro s hs
        injection hs with hs2
        rw [← hs2]
        exact hk
  by_cases hd : is_monkey_digit c
  · by_cases hmax : digitsToNat (accumulate_while is_monkey_digit c r).1 ≤ U32_MAX
    · refine Or.inr (Or.inr (Or.inr (Or.inl ⟨?_, hmax⟩)))
      rw [emit_digit c r hd, if_pos hmax]
      rfl
    · refine Or.inr (Or.inr (Or.inr (Or.inr ⟨?_, hd, ?_⟩)))
      · rw [emit_digit c r hd, if_neg hmax]
      · simp only [accumulate_while] at hmax
        omega
  · refine Or.inl ⟨Token.Illegal, ?_, by simp, fun s => by simp⟩
    refine emit_other c r (by simpa using hl) (by simpa using hd) ?_
    simp only [List.mem_cons, List.not_mem_nil, or_false, not_or]
    exact ⟨h1, h2, h3, h4, h5, h6, h7, h8, h9, h10, h11, h12, h13, h14⟩

theorem emit_rest_suffix (c : Char) (r : List Char) (t : Token) (rest : List Char)
    (h : emit c r = .tok t rest) : ∃ mid, r = mid ++ rest := by
  rcases emit_spec c r with ⟨t2, he, -, -⟩ | ⟨t2, c2, r2, hr, he, -, -⟩ |
    ⟨t2, he, -, -⟩ | ⟨he, -⟩ | ⟨he, -, -⟩
  · rw [h] at he; cases he; exact ⟨[], rfl⟩
  · rw [h] at he; cases he; exact ⟨[c2], hr⟩
  · rw [h] at he; cases he
    exact ⟨(takeWhileList is_monkey_letter r).1, (takeWhileList_decomp _ _).symm⟩
  · rw [h] at he; cases he
    exact ⟨(takeWhileList is_monkey_digit r).1, (takeWhileList_decomp _ _).symm⟩
  · rw [h] at he; cases he

theorem emit_not_eof (c : Char) (r : List Char) (t : Token) (rest : List Char)
    (h : emit c r = .tok t rest) : t ≠ Token.EOF := by
  rcases emit_spec c r with ⟨t2, he, hne, -⟩ | ⟨t2, c2, r2, -, he, hne, -⟩ |
    ⟨t2, he, hne, -⟩ | ⟨he, -⟩ | ⟨he, -, -⟩
  · rw [h] at he; cases he; exact hne
  · rw [h] at he; cases he; exact hne
  · rw [h] at he; cases he; exact hne
  · rw [h] at he; cases he; simp
  · rw [h] at he; cases he

theorem emit_ident_no_keyword (c : Char) (r : List Char) (s : String) (rest : List Char)
    (h : emit c r = .tok (Token.Ident s) rest) : parse_keyword s = none := by
  rcases emit_spec c r with ⟨t2, he, -, hni⟩ | ⟨t2, c2, r2, -, he, -, hni⟩ |
    ⟨t2, he, -, hkw⟩ | ⟨he, -⟩ | ⟨he, -, -⟩
  · rw [h] at he; cases he; exact absurd rfl (hni s)
  · rw [h] at he; cases he; exact absurd rfl (hni s)
  · rw [h] at he; cases he; exact hkw s rfl
  · rw [h] at he; cases he
  · rw [h] at he; cases he

theorem emit_panic_char (c : Char) (r : List Char) (h : emit c r = .panic) :
    is_monkey_digit c = true ∧
      U32_MAX < digitsToNat (c :: (takeWhileList is_monkey_digit r).1) := by
  rcases emit_spec c r with ⟨t2, he, -, -⟩ | ⟨t2, c2, r2, -, he, -, -⟩ |
    ⟨t2, he, -, -⟩ | ⟨he, -⟩ | ⟨he, hd, hv⟩
  · rw [h] at he; cases he
  · rw [h] at he; cases he
  · rw [h] at he; cases he
  · rw [h] at he; cases he
  · exact ⟨hd, hv⟩

theorem next_tok_decomp (input : List Char) (t : Token) (rest : List Char)
    (h : next input = .tok t rest) :
    ∃ chunk, chunk ≠ [] ∧ input = chunk ++ rest := by
  rw [next] at h
  cases hs : skip_ws input with
  | none => rw [hs] at h; cases h
  | some cr =>
    rw [hs] at h
    obtain ⟨c, r1⟩ := cr
    obtain ⟨⟨w, _, hl⟩, _⟩ := skip_ws_some input c r1 hs
    obtain ⟨mid, hmid⟩ := emit_rest_suffix c r1 t rest h
    exact ⟨w ++ c :: mid, by simp, by rw [hl, hmid]; simp⟩

theorem next_tok_length (input : List Char) (t : Token) (rest : List Char)
    (h : next input = .tok t rest) : rest.length < input.length := by
  obtain ⟨chunk, hne, heq⟩ := next_tok_decomp input t rest h
  have hpos : 0 < chunk.length := List.length_pos.mpr hne
  rw [heq, List.length_append]
  omega

theorem tokenizeFuel_eq (fuel : Nat) : ∀ input : List Char, input.length < fuel →
    tokenizeFuel fuel input = tokenize input := by
  induction fuel using Nat.strong_induction_on with
  | _ fuel ih =>
    intro input h
    cases fuel with
    | zero => omega
    | succ n =>
      cases hnext : next input with
      | eof => simp only [tokenize, tokenizeFuel, hnext]
      | panic => simp only [tokenize, tokenizeFuel, hnext]
      | tok t rest =>
        have hr : rest.length < input.length := next_tok_length input t rest hnext
        simp only [tokenize, tokenizeFuel, hnext]
        rw [ih n (by omega) rest (by omega), ih input.length (by omega) rest (by omega)]

theorem tokenizeFuel_succ (fuel : Nat) (input : List Char) :
    tokenizeFuel (fuel + 1) input =
      match next input with
      | .eof => some []
      | .panic => none
      | .tok t rest => Option.map (fun ts => t :: ts) (tokenizeFuel fuel rest) :=
  rfl

theorem tokenize_eq (input : List Char) : tokenize input =
    match next input with
    | .eof => some []
    | .panic => none
    | .tok t rest => Option.map (fun ts => t :: ts) (tokenize rest) := by
  rw [tokenize, tokenizeFuel_succ]
  cases hnext : next input with
  | eof => rfl
  | panic => rfl
  | tok t rest =>
    have hr : rest.length < input.length := next_tok_length input t rest hnext
    simp only []
    rw [tokenizeFuel_eq input.length rest (by omega)]

theorem ws_ne_eq (c : Char) (h : is_monkey_whitespace c = true) : c ≠ '=' := by
  intro he
  subst he
  exact absurd h (by decide)

theorem ne_cons_append (r : List Char) (c : Char) (m : List Char) :
    r = c :: (m ++ r) → False := by
  intro h
  have hlen := congrArg List.length h
  simp only [List.length_cons, List.length_append] at hlen
  omega

theorem stopOK_not_test (rest rest' : List Char) (hs : stopOK rest rest')
    (test : Char → Bool)
    (hws : ∀ c, is_monkey_whitespace c = true → test c = false)
    (hstop : ∀ c t'', rest = c :: t'' → test c = false) :
    ∀ c t'', rest' = c :: t'' → test c = false := by
  intro c t'' heq
  rcases hs with rfl | ⟨c2, t3, rfl, hcase⟩
  · cases heq
  · injection heq with h1 h2
    rw [← h1]
    rcases hcase with h | h
    · exact hws c2 h
    · cases rest with
      | nil => simp at h
      | cons c4 t4 =>
        simp only [List.head?] at h
        injection h with h4
        subst h4
        exact hstop c4 t4 rfl

theorem extend_two_char (cc : Char) (tkYes tkNo : Token)
    (hcons : ∀ c2 r2, emit cc (c2 :: r2) =
      if c2 = '=' then LexResult.tok tkYes r2 else LexResult.tok tkNo (c2 :: r2))
    (hnil : emit cc [] = .tok tkNo [])
    (mid rest rest' : List Char) (t : Token)
    (h : emit cc (mid ++ rest) = .tok t rest) (hs : stopOK rest rest') :
    emit cc (mid ++ rest') = .tok t rest' := by
  have hne_of : ∀ c' t'', rest' = c' :: t'' →
      (∀ c0 t0, rest = c0 :: t0 → c0 ≠ '=') → c' ≠ '=' := by
    intro c' t'' heq hrne he
    rcases hs with rfl | ⟨c2, t3, heq2, hcase⟩
    · cases heq
    · rw [heq2] at heq
      injection heq with hx1 hx2
      have he2 : c2 = '=' := hx1.trans he
      rcases hcase with hw | hh
      · exact ws_ne_eq c2 hw he2
      · cases rest with
        | nil => simp at hh
        | cons c4 t4 =>
          simp only [List.head?] at hh
          injection hh with h4
          subst h4
          exact hrne c4 t4 rfl he2
  cases mid with
  | nil =>
    rw [List.nil_append] at h
    rw [List.nil_append]
    cases rest with
    | nil =>
      rw [hnil] at h
      injection h with ht hr
      subst ht
      cases rest' with
      | nil => exact hnil
      | cons c' t'' =>
        rw [hcons, if_neg (hne_of c' t'' rfl (fun c0 t0 hq => by cases hq))]
    | cons c2 r2 =>
      rw [hcons] at h
      by_cases hc2 : c2 = '='
      · rw [if_pos hc2] at h
        injection h with ht hr
        exact absurd hr (fun hq => ne_cons_append r2 c2 [] hq)
      · rw [if_neg hc2] at h
        injection h with ht hr
        subst ht
        cases rest' with
        | nil => exact hnil
        | cons c' t'' =>
          rw [hcons, if_neg (hne_of c' t'' rfl
            (fun c0 t0 hq => by injection hq with q1 q2; subst q1; exact hc2))]
  | cons m0 m1 =>
    rw [List.cons_append] at h
    rw [hcons] at h
    by_cases hm0 : m0 = '='
    · rw [if_pos hm0] at h
      injection h with ht hr
      subst ht
      have hm1 : m1 = [] := append_eq_nil_of_append_eq m1 rest hr
      subst hm1 hm0
      rw [List.cons_append, List.nil_append, hcons, if_pos rfl]
    · rw [if_neg hm0] at h
      injection h with ht hr
      exact absurd hr (fun hq => ne_cons_append rest m0 m1 hq.symm)

theorem emit_letter2 (c : Char) (r : List Char) (h : is_monkey_letter c = true) :
    emit c r =
      match parse_keyword (String.mk (c :: (takeWhileList is_monkey_letter r).1)) with
      | some k => LexResult.tok k (takeWhileList is_monkey_letter r).2
      | none => LexResult.tok
          (Token.Ident (String.mk (c :: (takeWhileList is_monkey_letter r).1)))
          (takeWhileList is_monkey_letter r).2 :=
  emit_letter c r h

theorem emit_digit2 (c : Char) (r : List Char) (h : is_monkey_digit c = true) :
    emit c r =
      (if digitsToNat (c :: (takeWhileList is_monkey_digit r).1) ≤ U32_MAX then
        LexResult.tok (Token.Int (digitsToNat (c :: (takeWhileList is_monkey_digit r).1)))
          (takeWhileList is_monkey_digit r).2
      else LexResult.panic) :=
  emit_digit c r h

/-- Core stability lemma: if one `next` dispatch consumed exactly `mid`
and stopped with remainder `rest`, the same token is produced when the
remainder is replaced by any `stopOK`-compatible `rest'`. -/
theorem emit_extend (c : Char) (mid rest rest' : List Char) (t : Token)
    (h : emit c (mid ++ rest) = .tok t rest) (hs : stopOK rest rest') :
    emit c (mid ++ rest') = .tok t rest' := by
  have const_case : ∀ tk : Token, (∀ x : List Char, emit c x = .tok tk x) →
      emit c (mid ++ rest') = .tok t rest' := by
    intro tk heval
    rw [heval (mid ++ rest)] at h
    injection h with ht hrest
    have hm : mid = [] := append_eq_nil_of_append_eq mid rest hrest
    subst hm
    exact ht ▸ heval rest'
  by_cases h1 : c = ';'
  · subst h1; exact const_case Token.Semicolon (fun x => rfl)
  by_cases h2 : c = '('
  · subst h2; exact const_case Token.LParen (fun x => rfl)
  by_cases h3 : c = ')'
  · subst h3; exact const_case Token.RParen (fun x => rfl)
  by_cases h4 : c = ','
  · subst h4; exact const_case Token.Comma (fun x => rfl)
  by_cases h5 : c = '+'
  · subst h5; exact const_case Token.Plus (fun x => rfl)
  by_cases h6 : c = '-'
  · subst h6; exact const_case Token.Minus (fun x => rfl)
  by_cases h7 : c = '*'
  · subst h7; exact const_case Token.Asterisk (fun x => rfl)
  by_cases h8 : c = '/'
  · subst h8; exact const_case Token.Slash (fun x => rfl)
  by_cases h9 : c = '>'
  · subst h9; exact const_case Token.GT (fun x => rfl)
  by_cases h10 : c = '<'
  · subst h10; exact const_case Token.LT (fun x => rfl)
  by_cases h11 : c = '\x7b'
  · subst h11; exact const_case Token.LBrace (fun x => rfl)
  by_cases h12 : c = '\x7d'
  · subst h12; exact const_case Token.RBrace (fun x => rfl)
  by_cases h13 : c = '='
  · subst h13
    exact extend_two_char '=' Token.Eq Token.Assign emit_eq_cons emit_eq_nil
      mid rest rest' t h hs
  by_cases h14 : c = '!'
  · subst h14
    exact extend_two_char '!' Token.NotEq Token.Illegal emit_bang_cons emit_bang_nil
      mid rest rest' t h hs
  by_cases hl : is_monkey_letter c
  · rw [emit_letter2 c (mid ++ rest) hl] at h
    rw [emit_letter2 c (mid ++ rest') hl]
    have harms : (takeWhileList is_monkey_letter (mid ++ rest)).2 = rest := by
      cases hk : parse_keyword
          (String.mk (c :: (takeWhileList is_monkey_letter (mid ++ rest)).1)) with
      | some k =>
        simp only [hk] at h
        injection h with ht htw
      | none =>
        simp only [hk] at h
        injection h with ht htw
    have hfst : (takeWhileList is_monkey_letter (mid ++ rest)).1 = mid := by
      have hdec := takeWhileList_decomp is_monkey_letter (mid ++ rest)
      rw [harms] at hdec
      exact List.append_cancel_right hdec
    have hstop : ∀ c0 t0, rest = c0 :: t0 → is_monkey_letter c0 = false := by
      intro c0 t0 hq
      exact takeWhileList_snd_head is_monkey_letter (mid ++ rest) c0 t0 (by rw [harms, hq])
    have hmidall : ∀ x ∈ mid, is_monkey_letter x = true := by
      intro x hx
      exact takeWhileList_fst_all is_monkey_letter (mid ++ rest) x (by rw [hfst]; exact hx)
    have htw2 : takeWhileList is_monkey_letter (mid ++ rest') = (mid, rest') :=
      takeWhileList_of_spec is_monkey_letter mid rest' hmidall
        (stopOK_not_test rest rest' hs is_monkey_letter ws_not_letter hstop)
    rw [hfst, harms] at h
    rw [htw2]
    dsimp only
    cases hk : parse_keyword (String.mk (c :: mid)) with
    | some k =>
      simp only [hk] at h ⊢
      injection h with ht htr
      rw [ht]
    | none =>
      simp only [hk] at h ⊢
      injection h with ht htr
      rw [ht]
  by_cases hd : is_monkey_digit c
  · rw [emit_digit2 c (mid ++ rest) hd] at h
    rw [emit_digit2 c (mid ++ rest') hd]
    by_cases hmax : digitsToNat (c :: (takeWhileList is_monkey_digit (mid ++ rest)).1) ≤ U32_MAX
    · rw [if_pos hmax] at h
      injection h with ht htw
      have hfst : (takeWhileList is_monkey_digit (mid ++ rest)).1 = mid := by
        have hdec := takeWhileList_decomp is_monkey_digit (mid ++ rest)
        rw [htw] at hdec
        exact List.append_cancel_right hdec
      have hstop : ∀ c0 t0, rest = c0 :: t0 → is_monkey_digit c0 = false := by
        intro c0 t0 hq
        exact takeWhileList_snd_head is_monkey_digit (mid ++ rest) c0 t0 (by rw [htw, hq])
      have hmidall : ∀ x ∈ mid, is_monkey_digit x = true := by
        intro x hx
        exact takeWhileList_fst_all is_monkey_digit (mid ++ rest) x (by rw [hfst]; exact hx)
      have htw2 : takeWhileList is_monkey_digit (mid ++ rest') = (mid, rest') :=
        takeWhileList_of_spec is_monkey_digit mid rest' hmidall
          (stopOK_not_test rest rest' hs is_monkey_digit ws_not_digit hstop)
      rw [hfst] at hmax
      rw [hfst] at ht
      rw [htw2]
      dsimp only
      rw [if_pos hmax, ht]
    · rw [if_neg hmax] at h
      cases h
  · have hmem : c ∉ [';', '(', ')', ',', '+', '-', '*', '/', '>', '<', '\x7b', '\x7d', '=', '!'] := by
      simp only [List.mem_cons, List.not_mem_nil, or_false, not_or]
      exact ⟨h1, h2, h3, h4, h5, h6, h7, h8, h9, h10, h11, h12, h13, h14⟩
    have hlf : is_monkey_letter c = false := by simpa using hl
    have hdf : is_monkey_digit c = false := by simpa using hd
    rw [emit_other c (mid ++ rest) hlf hdf hmem] at h
    injection h with ht hrest
    have hm : mid = [] := append_eq_nil_of_append_eq mid rest hrest
    subst hm
    rw [List.nil_append]
    rw [emit_other c rest' hlf hdf hmem, ht]

/-- `next` is stable in the same sense: the consumed chunk determines the
token, for any compatible continuation of the input. -/
theorem next_extend (chunk rest rest' : List Char) (t : Token)
    (h : next (chunk ++ rest) = .tok t rest) (hs : stopOK rest rest') :
    next (chunk ++ rest') = .tok t rest' := by
  rw [next] at h
  cases hsw : skip_ws (chunk ++ rest) with
  | none => rw [hsw] at h; cases h
  | some cr =>
    rw [hsw] at h
    obtain ⟨c, r1⟩ := cr
    obtain ⟨⟨w, hw, hl⟩, hc⟩ := skip_ws_some (chunk ++ rest) c r1 hsw
    obtain ⟨mid, hmid⟩ := emit_rest_suffix c r1 t rest h
    have hchunk : chunk = w ++ c :: mid := by
      have hx : chunk ++ rest = (w ++ c :: mid) ++ rest := by
        rw [hl, hmid]
        simp
      exact List.append_cancel_right hx
    rw [hchunk, List.append_assoc, List.cons_append]
    have hskip2 : skip_ws (w ++ (c :: (mid ++ rest'))) = some (c, mid ++ rest') := by
      rw [skip_ws_append_ws w _ hw]
      exact skip_ws_cons_not c (mid ++ rest') hc
    rw [next, hskip2]
    rw [hmid] at h
    exact emit_extend c mid rest rest' t h hs

theorem emit_ne_eof_result (c : Char) (r : List Char) : emit c r ≠ .eof := by
  rcases emit_spec c r with ⟨t2, he, -, -⟩ | ⟨t2, c2, r2, -, he, -, -⟩ |
    ⟨t2, he, -, -⟩ | ⟨he, -⟩ | ⟨he, -, -⟩ <;> rw [he] <;> simp

theorem next_ws_prepend (w l : List Char) (hw : allWs w) : next (w ++ l) = next l := by
  unfold next
  rw [skip_ws_append_ws w l hw]

theorem next_eof_iff (l : List Char) : next l = .eof ↔ allWs l := by
  rw [next]
  cases hs : skip_ws l with
  | none => exact ⟨fun _ => (skip_ws_none_iff l).mp hs, fun _ => rfl⟩
  | some cr =>
    constructor
    · intro h
      exact absurd h (emit_ne_eof_result cr.1 cr.2)
    · intro hall
      exact absurd ((skip_ws_none_iff l).mpr hall) (by rw [hs]; simp)

theorem padded_stopOK (a b : List Char) (h : padded a b) : stopOK a b := by
  cases h with
  | eof inp w hnext hw =>
    cases w with
    | nil =>
      cases ha : a with
      | nil => exact Or.inl (by simp [ha])
      | cons c t => exact Or.inr ⟨c, t, by simp [ha], Or.inr rfl⟩
    | cons c t =>
      exact Or.inr ⟨c, t ++ a, by simp, Or.inl (stn_ws c (hw c (by simp)))⟩
  | tok inp chunk t rest w rest2 hnext hdecomp hw hp =>
    cases w with
    | nil =>
      have hlen := next_tok_length a t rest hnext
      cases hchunk : chunk with
      | nil =>
        exfalso
        rw [hchunk] at hdecomp
        rw [hdecomp] at hlen
        simp at hlen
      | cons c0 ct =>
        refine Or.inr ⟨c0, ct ++ rest2, by simp [hchunk], Or.inr ?_⟩
        rw [hdecomp, hchunk]
        simp
    | cons c t2 =>
      exact Or.inr ⟨c, t2 ++ (chunk ++ rest2), by simp, Or.inl (stn_ws c (hw c (by simp)))⟩

theorem padded_tokenize (input out : List Char) (h : padded input out) :
    tokenize out = tokenize input := by
  induction h with
  | eof input w hnext hw =>
    rw [tokenize_eq (w ++ input), tokenize_eq input]
    rw [next_ws_prepend w input (allSTN_allWs w hw), hnext]
  | tok input chunk t rest w rest2 hnext hdecomp hw hp ih =>
    have hnext2 : next (chunk ++ rest2) = .tok t rest2 := by
      apply next_extend chunk rest rest2 t
      · rw [← hdecomp]; exact hnext
      · exact padded_stopOK rest rest2 hp
    rw [tokenize_eq (w ++ (chunk ++ rest2)),
      next_ws_prepend w _ (allSTN_allWs w hw), hnext2, tokenize_eq input, hnext]
    dsimp only
    rw [ih]

theorem tokenize_ws_prepend (w l : List Char) (hw : allWs w) :
    tokenize (w ++ l) = tokenize l := by
  rw [tokenize_eq (w ++ l), tokenize_eq l, next_ws_prepend w l hw]

theorem takeWhileList_append_stop (test : Char → Bool) (l w : List Char)
    (hw : ∀ c' t', w = c' :: t' → test c' = false) :
    takeWhileList test (l ++ w) =
      ((takeWhileList test l).1, (takeWhileList test l).2 ++ w) := by
  have hdec := takeWhileList_decomp test l
  have hall := takeWhileList_fst_all test l
  cases hsnd : (takeWhileList test l).2 with
  | nil =>
    have hl : (takeWhileList test l).1 = l := by
      conv_rhs => rw [← hdec]
      rw [hsnd]
      simp
    have hall2 : ∀ x ∈ l, test x = true := by
      intro x hx
      exact hall x (by rw [hl]; exact hx)
    rw [hl, List.nil_append]
    exact takeWhileList_of_spec test l w hall2 hw
  | cons c0 t0 =>
    have hstop : ∀ c' t', (takeWhileList test l).2 ++ w = c' :: t' → test c' = false := by
      intro c' t' hq
      rw [hsnd] at hq
      injection hq with q1 q2
      rw [← q1]
      exact takeWhileList_snd_head test l c0 t0 hsnd
    have hres := takeWhileList_of_spec test (takeWhileList test l).1
      ((takeWhileList test l).2 ++ w) hall hstop
    rw [← List.append_assoc, hdec] at hres
    rw [hres, hsnd]

theorem emit_panic_append (c : Char) (r w : List Char) (h : emit c r = .panic)
    (hw : ∀ c' t', w = c' :: t' → is_monkey_digit c' = false) :
    emit c (r ++ w) = .panic := by
  obtain ⟨hd, hv⟩ := emit_panic_char c r h
  rw [emit_digit2 c (r ++ w) hd, takeWhileList_append_stop is_monkey_digit r w hw]
  dsimp only
  rw [if_neg (by omega)]

theorem tokenize_ws_append_aux (w : List Char) (hw : allWs w) :
    ∀ n : Nat, ∀ l : List Char, l.length ≤ n → tokenize (l ++ w) = tokenize l := by
  intro n
  induction n with
  | zero =>
    intro l hl
    have hnil : l = [] := List.eq_nil_of_length_eq_zero (Nat.le_zero.mp hl)
    subst hnil
    rw [List.nil_append, tokenize_eq w, (next_eof_iff w).mpr hw]
    rfl
  | succ n ih =>
    intro l hl
    cases hnext : next l with
    | eof =>
      have hall : allWs l := (next_eof_iff l).mp hnext
      have hall2 : allWs (l ++ w) := by
        intro c hc
        rcases List.mem_append.mp hc with h | h
        · exact hall c h
        · exact hw c h
      rw [tokenize_eq (l ++ w), tokenize_eq l, hnext, (next_eof_iff (l ++ w)).mpr hall2]
    | panic =>
      have hpan : next (l ++ w) = .panic := by
        rw [next] at hnext
        cases hsw : skip_ws l with
        | none => rw [hsw] at hnext; cases hnext
        | some cr =>
          rw [hsw] at hnext
          obtain ⟨c, r1⟩ := cr
          rw [next, skip_ws_append l w c r1 hsw]
          exact emit_panic_append c r1 w hnext
            (fun c' t' hq => ws_not_digit c' (hw c' (by rw [hq]; simp)))
      rw [tokenize_eq (l ++ w), tokenize_eq l, hnext, hpan]
    | tok t rest =>
      obtain ⟨chunk, hne, hdec⟩ := next_tok_decomp l t rest hnext
      have hlen := next_tok_length l t rest hnext
      have hnext2 : next (chunk ++ (rest ++ w)) = .tok t (rest ++ w) := by
        apply next_extend chunk rest (rest ++ w) t (by rw [← hdec]; exact hnext)
        cases rest with
        | nil =>
          cases hw2 : w with
          | nil => exact Or.inl (by simp)
          | cons cw tw2 =>
            exact Or.inr ⟨cw, tw2, by simp, Or.inl (hw cw (by rw [hw2]; simp))⟩
        | cons c0 t0 => exact Or.inr ⟨c0, t0 ++ w, by simp, Or.inr rfl⟩
      rw [tokenize_eq (l ++ w), tokenize_eq l, hnext, hdec, List.append_assoc, hnext2]
      dsimp only
      rw [ih rest (by omega)]

theorem tokenize_ws_append (l w : List Char) (hw : allWs w) :
    tokenize (l ++ w) = tokenize l :=
  tokenize_ws_append_aux w hw l.length l (le_refl _)

theorem next_not_eof (input : List Char) (t : Token) (rest : List Char)
    (h : next input = .tok t rest) : t ≠ Token.EOF := by
  rw [next] at h
  cases hsw : skip_ws input with
  | none => rw [hsw] at h; cases h
  | some cr => rw [hsw] at h; exact emit_not_eof cr.1 cr.2 t rest h

theorem next_ident_no_keyword (input : List Char) (s : String) (rest : List Char)
    (h : next input = .tok (Token.Ident s) rest) : parse_keyword s = none := by
  rw [next] at h
  cases hsw : skip_ws input with
  | none => rw [hsw] at h; cases h
  | some cr => rw [hsw] at h; exact emit_ident_no_keyword cr.1 cr.2 s rest h

theorem tokenize_invariants_aux : ∀ n : Nat, ∀ input : List Char, input.length ≤ n →
    ∀ toks, tokenize input = some toks →
    toks.length ≤ input.length ∧
      ∀ t ∈ toks, t ≠ Token.EOF ∧ ∀ s, t = Token.Ident s → parse_keyword s = none := by
  intro n
  induction n with
  | zero =>
    intro input hl toks htoks
    have hnil : input = [] := List.eq_nil_of_length_eq_zero (Nat.le_zero.mp hl)
    subst hnil
    rw [tokenize_eq] at htoks
    have : some [] = some toks := htoks
    injection this with hteq
    subst hteq
    exact ⟨by simp, by simp⟩
  | succ n ih =>
    intro input hl toks htoks
    rw [tokenize_eq] at htoks
    cases hnext : next input with
    | eof =>
      rw [hnext] at htoks
      injection htoks with hteq
      subst hteq
      exact ⟨by simp, by simp⟩
    | panic => rw [hnext] at htoks; cases htoks
    | tok t rest =>
      rw [hnext] at htoks
      dsimp only at htoks
      cases hrec : tokenize rest with
      | none => rw [hrec] at htoks; cases htoks
      | some ts =>
        rw [hrec] at htoks
        injection htoks with hteq
        subst hteq
        have hlen := next_tok_length input t rest hnext
        obtain ⟨ih1, ih2⟩ := ih rest (by omega) ts hrec
        constructor
        · simp only [List.length_cons]
          omega
        · intro x hx
          rcases List.mem_cons.mp hx with rfl | hx
          · exact ⟨next_not_eof input x rest hnext,
              fun s hs => next_ident_no_keyword input s rest (by rw [← hs]; exact hnext)⟩
          · exact ih2 x hx

/-- Every maximal and non-maximal run of digits occurring contiguously in
`input` has value within the `u32` range. -/
def fitsU32 (input : List Char) : Prop :=
  ∀ pre d post, input = pre ++ (d ++ post) → (∀ x ∈ d, is_monkey_digit x = true) →
    digitsToNat d ≤ U32_MAX

theorem fitsU32_suffix (chunk rest : List Char) (h : fitsU32 (chunk ++ rest)) :
    fitsU32 rest := by
  intro pre d post hsplit hd
  exact h (chunk ++ pre) d post (by rw [hsplit]; simp) hd

theorem next_no_panic (input : List Char) (hfit : fitsU32 input) : next input ≠ .panic := by
  intro h
  rw [next] at h
  cases hsw : skip_ws input with
  | none => rw [hsw] at h; cases h
  | some cr =>
    rw [hsw] at h
    obtain ⟨c, r1⟩ := cr
    obtain ⟨⟨w, hw, hl⟩, hc⟩ := skip_ws_some input c r1 hsw
    obtain ⟨hd, hv⟩ := emit_panic_char c r1 h
    have hdec := takeWhileList_decomp is_monkey_digit r1
    have hsplit : input =
        w ++ ((c :: (takeWhileList is_monkey_digit r1).1) ++
          (takeWhileList is_monkey_digit r1).2) := by
      rw [hl]
      rw [List.cons_append, hdec]
    have hrun : ∀ x ∈ c :: (takeWhileList is_monkey_digit r1).1,
        is_monkey_digit x = true := by
      intro x hx
      rcases List.mem_cons.mp hx with rfl | hx
      · exact hd
      · exact takeWhileList_fst_all is_monkey_digit r1 x hx
    have := hfit w (c :: (takeWhileList is_monkey_digit r1).1)
      (takeWhileList is_monkey_digit r1).2 hsplit hrun
    omega

theorem tokenize_no_panic_aux : ∀ n : Nat, ∀ input : List Char, input.length ≤ n →
    fitsU32 input → tokenize input ≠ none := by
  intro n
  induction n with
  | zero =>
    intro input hl hfit
    have hnil : input = [] := List.eq_nil_of_length_eq_zero (Nat.le_zero.mp hl)
    subst hnil
    rw [tokenize_eq]
    intro h
    cases h
  | succ n ih =>
    intro input hl hfit
    rw [tokenize_eq]
    cases hnext : next input with
    | eof => intro h; cases h
    | panic => exact absurd hnext (next_no_panic input hfit)
    | tok t rest =>
      obtain ⟨chunk, -, hdec⟩ := next_tok_decomp input t rest hnext
      have hlen := next_tok_length input t rest hnext
      have hfit2 : fitsU32 rest := fitsU32_suffix chunk rest (hdec ▸ hfit)
      cases hrec : tokenize rest with
      | none => exact absurd hrec (ih rest (by omega) hfit2)
      | some ts => dsimp only; rw [hrec]; intro h; cases h

theorem next_overflow_panic (w d post : List Char) (hw : allWs w) (hne : d ≠ [])
    (hd : ∀ x ∈ d, is_monkey_digit x = true)
    (hpost : ∀ c t', post = c :: t' → is_monkey_digit c = false)
    (hval : U32_MAX < digitsToNat d) :
    next (w ++ (d ++ post)) = .panic := by
  cases d with
  | nil => exact absurd rfl hne
  | cons c0 dt =>
    rw [next, skip_ws_append_ws w _ hw]
    have hc0 : is_monkey_digit c0 = true := hd c0 (by simp)
    have hcnw : is_monkey_whitespace c0 = false := by
      rw [Bool.eq_false_iff]
      intro hq
      have := ws_not_digit c0 hq
      rw [hc0] at this
      cases this
    rw [List.cons_append, skip_ws_cons_not c0 (dt ++ post) hcnw]
    show emit c0 (dt ++ post) = .panic
    rw [emit_digit2 c0 (dt ++ post) hc0]
    rw [takeWhileList_of_spec is_monkey_digit dt post
      (fun x hx => hd x (by simp [hx])) hpost]
    dsimp only
    rw [if_neg (by omega)]

theorem tokenize_illegal_step (c : Char) (r : List Char)
    (hlf : is_monkey_letter c = false) (hdf : is_monkey_digit c = false)
    (hmem : c ∉ [';', '(', ')', ',', '+', '-', '*', '/', '>', '<', '\x7b', '\x7d', '=', '!'])
    (hwf : is_monkey_whitespace c = false) :
    tokenize (c :: r) = Option.map (fun ts => Token.Illegal :: ts) (tokenize r) := by
  rw [tokenize_eq (c :: r), next, skip_ws_cons_not c r hwf]
  show (match emit c r with
    | LexResult.eof => some []
    | LexResult.panic => none
    | LexResult.tok t rest => Option.map (fun ts => t :: ts) (tokenize rest)) =
    Option.map (fun ts => Token.Illegal :: ts) (tokenize r)
  rw [emit_other c r hlf hdf hmem]

/-- C1: for the input string "let stuff = fn(x, y) { return x + y + 3; };"
(possibly surrounded by whitespace), repeated calls to next_token yield
exactly, in order: let, Ident "stuff", assign, function, left-paren,
Ident "x", comma, Ident "y", right-paren, left-brace, return, Ident "x",
plus, Ident "y", plus, Int 3, semicolon, right-brace, semicolon, and then
the exhaustion signal (the token list ends). -/
theorem c1_end_to_end (w1 w2 : List Char) (hw1 : allWs w1) (hw2 : allWs w2) :
    tokenize (w1 ++
        (String.toList "let stuff = fn(x, y) \x7b return x + y + 3; \x7d;" ++ w2)) =
      some [Token.Let, Token.Ident "stuff", Token.Assign, Token.Function, Token.LParen,
        Token.Ident "x", Token.Comma, Token.Ident "y", Token.RParen, Token.LBrace,
        Token.Return, Token.Ident "x", Token.Plus, Token.Ident "y", Token.Plus,
        Token.Int 3, Token.Semicolon, Token.RBrace, Token.Semicolon] := by
  rw [tokenize_ws_prepend w1 _ hw1, tokenize_ws_append _ w2 hw2]
  decide

/-- C1 witness: the concrete padding by one space in front and one newline
behind. -/
theorem c1_end_to_end_witness :
    tokenize ([' '] ++
        (String.toList "let stuff = fn(x, y) \x7b return x + y + 3; \x7d;" ++ ['\n'])) =
      some [Token.Let, Token.Ident "stuff", Token.Assign, Token.Function, Token.LParen,
        Token.Ident "x", Token.Comma, Token.Ident "y", Token.RParen, Token.LBrace,
        Token.Return, Token.Ident "x", Token.Plus, Token.Ident "y", Token.Plus,
        Token.Int 3, Token.Semicolon, Token.RBrace, Token.Semicolon] :=
  c1_end_to_end [' '] ['\n'] (by decide) (by decide)

/-- C2: two-character operator disambiguation by one-character lookahead:
"==" lexes to one Eq token, "=" to one Assign, "!=" to one NotEq, "!" to
one Illegal; and in general, after consuming an '=' (resp. '!'), `next`
consumes a following '=' and emits Eq (resp. NotEq), and otherwise emits
Assign (resp. Illegal) leaving the remaining input untouched. -/
theorem c2_two_char_ops :
    lex "==" = some [Token.Eq] ∧
    lex "=" = some [Token.Assign] ∧
    lex "!=" = some [Token.NotEq] ∧
    lex "!" = some [Token.Illegal] ∧
    (∀ rest : List Char, emit '=' ('=' :: rest) = .tok Token.Eq rest) ∧
    (∀ rest : List Char, rest.head? ≠ some '=' → emit '=' rest = .tok Token.Assign rest) ∧
    (∀ rest : List Char, emit '!' ('=' :: rest) = .tok Token.NotEq rest) ∧
    (∀ rest : List Char, rest.head? ≠ some '=' → emit '!' rest = .tok Token.Illegal rest) := by
  refine ⟨by decide, by decide, by decide, by decide, fun rest => rfl, ?_, fun rest => rfl, ?_⟩
  · intro rest h
    cases rest with
    | nil => rfl
    | cons c2 r2 =>
      rw [emit_eq_cons, if_neg (fun hq => by rw [hq] at h; exact h rfl)]
  · intro rest h
    cases rest with
    | nil => rfl
    | cons c2 r2 =>
      rw [emit_bang_cons, if_neg (fun hq => by rw [hq] at h; exact h rfl)]

/-- C2 witness: the no-consume branches at the concrete remainder "a". -/
theorem c2_two_char_ops_witness :
    emit '=' (String.toList "a") = .tok Token.Assign (String.toList "a") ∧
    emit '!' (String.toList "a") = .tok Token.Illegal (String.toList "a") :=
  ⟨c2_two_char_ops.2.2.2.2.2.1 (String.toList "a") (by decide),
    c2_two_char_ops.2.2.2.2.2.2.2 (String.toList "a") (by decide)⟩

/-- C3: keyword recognition takes precedence over identifier
classification: no Ident token whose payload is one of the seven keywords
is ever produced, on any input; "let" lexes to the Let keyword and "lets"
to Ident "lets". -/
theorem c3_keyword_precedence :
    (∀ input toks, tokenize input = some toks →
      ∀ s, Token.Ident s ∈ toks →
        s ∉ (["let", "fn", "true", "false", "if", "else", "return"] : List String)) ∧
    lex "let" = some [Token.Let] ∧
    lex "lets" = some [Token.Ident "lets"] := by
  refine ⟨?_, by decide, by decide⟩
  intro input toks htoks s hmem hin
  have h := (tokenize_invariants_aux input.length input (le_refl _) toks htoks).2
    (Token.Ident s) hmem
  have hnone := h.2 s rfl
  simp only [List.mem_cons, List.not_mem_nil, or_false] at hin
  rcases hin with rfl | rfl | rfl | rfl | rfl | rfl | rfl <;> exact absurd hnone (by decide)

/-- C3 witness: the universal part applied to the input "x". -/
theorem c3_keyword_precedence_witness :
    ("x" : String) ∉ (["let", "fn", "true", "false", "if", "else", "return"] : List String) :=
  c3_keyword_precedence.1 (String.toList "x") [Token.Ident "x"] (by decide) "x" (by decide)

/-- C4: whitespace is fully transparent: inserting arbitrary runs of
spaces, tabs and newlines before, between and after the tokens of an
input (the `padded` relation) never changes the token sequence. -/
theorem c4_whitespace_transparent (input out : List Char) (h : padded input out) :
    tokenize out = tokenize input :=
  padded_tokenize input out h

/-- C4 witness: inserting one space between the two tokens of "+;". -/
theorem c4_whitespace_transparent_witness :
    tokenize (String.toList "+ ;") = tokenize (String.toList "+;") := by
  apply c4_whitespace_transparent
  have h0 : padded [] [] := padded.eof [] [] (by decide) (by decide)
  have h1 : padded [';'] ([' '] ++ ([';'] ++ [])) :=
    padded.tok [';'] [';'] Token.Semicolon [] [' '] [] (by decide) rfl (by decide) h0
  exact padded.tok ['+', ';'] ['+'] Token.Plus [';'] [] ([' '] ++ ([';'] ++ []))
    (by decide) rfl (by decide) h1

/-- C5: identifier maximal munch with letter-only continuation: from a
letter/underscore start the lexer consumes exactly the maximal following
run of letters/underscores and emits one token for the whole run (keyword
if the run is in the table, Ident otherwise); digits never continue a run
since they are not letters; "asd_f" lexes to the single Ident "asd_f". -/
theorem c5_maximal_munch :
    (∀ c mid rest, is_monkey_letter c = true →
      (∀ x ∈ mid, is_monkey_letter x = true) →
      (∀ d t', rest = d :: t' → is_monkey_letter d = false) →
      emit c (mid ++ rest) =
        .tok ((parse_keyword (String.mk (c :: mid))).getD
          (Token.Ident (String.mk (c :: mid)))) rest) ∧
    (∀ d, is_monkey_digit d = true → is_monkey_letter d = false) ∧
    lex "asd_f" = some [Token.Ident "asd_f"] := by
  refine ⟨?_, digit_not_letter, by decide⟩
  intro c mid rest hc hmid hrest
  rw [emit_letter2 c (mid ++ rest) hc,
    takeWhileList_of_spec is_monkey_letter mid rest hmid hrest]
  dsimp only
  cases hk : parse_keyword (String.mk (c :: mid)) with
  | some k => simp only [hk, Option.getD_some]
  | none => simp only [hk, Option.getD_none]

/-- C5 witness: the maximal-munch branch at start 'a', continuation "b",
stopper "+". -/
theorem c5_maximal_munch_witness :
    emit 'a' (['b'] ++ ['+']) = .tok (Token.Ident "ab") ['+'] := by
  have h := c5_maximal_munch.1 'a' ['b'] ['+'] (by decide) (by decide)
    (fun d t' hq => by cases hq; decide)
  simpa using h

/-- C6: integer accumulation: from a digit start the lexer consumes the
maximal run of digits and emits one Int token carrying the decimal value
of the run (when it fits in u32); "123" lexes to Int 123 and "1 2" to
Int 1, Int 2. -/
theorem c6_integer_accumulation :
    (∀ c mid rest, is_monkey_digit c = true →
      (∀ x ∈ mid, is_monkey_digit x = true) →
      (∀ d t', rest = d :: t' → is_monkey_digit d = false) →
      digitsToNat (c :: mid) ≤ U32_MAX →
      emit c (mid ++ rest) = .tok (Token.Int (digitsToNat (c :: mid))) rest) ∧
    lex "123" = some [Token.Int 123] ∧
    lex "1 2" = some [Token.Int 1, Token.Int 2] := by
  refine ⟨?_, by decide, by decide⟩
  intro c mid rest hc hmid hrest hv
  rw [emit_digit2 c (mid ++ rest) hc,
    takeWhileList_of_spec is_monkey_digit mid rest hmid hrest]
  dsimp only
  rw [if_pos hv]

/-- C6 witness: the digit branch at start '1', continuation "2",
stopper "+". -/
theorem c6_integer_accumulation_witness :
    emit '1' (['2'] ++ ['+']) = .tok (Token.Int 12) ['+'] := by
  have h := c6_integer_accumulation.1 '1' ['2'] ['+'] (by decide) (by decide)
    (fun d t' hq => by cases hq; decide) (by decide)
  simpa using h

/-- C7: integer overflow: "4294967296" makes the scan abort (`none`, the
panic) producing no token stream; in general the `next` call that reaches
a maximal digit run whose value exceeds u32 returns the panic, not a
token; and under the precondition that every contiguous digit run fits in
u32 (`fitsU32`), the panic branch is unreachable. -/
theorem c7_overflow_panic :
    lex "4294967296" = none ∧
    (∀ w d post, allWs w → d ≠ [] → (∀ x ∈ d, is_monkey_digit x = true) →
      (∀ c t', post = c :: t' → is_monkey_digit c = false) →
      U32_MAX < digitsToNat d → next (w ++ (d ++ post)) = .panic) ∧
    (∀ input, fitsU32 input → tokenize input ≠ none) := by
  refine ⟨by decide, next_overflow_panic, ?_⟩
  intro input hfit
  exact tokenize_no_panic_aux input.length input (le_refl _) hfit

/-- C7 witness: the panic at the concrete overflowing run, and absence of
panic on the empty input. -/
theorem c7_overflow_panic_witness :
    next ([] ++ (String.toList "4294967296" ++ [])) = .panic ∧
    tokenize [] ≠ none :=
  ⟨c7_overflow_panic.2.1 [] (String.toList "4294967296") [] (by decide) (by decide)
      (by decide) (fun c t' hq => by cases hq) (by decide),
    c7_overflow_panic.2.2 []
      (fun pre d post hsplit hd => by
        have h1 : pre ++ (d ++ post) = [] := hsplit.symm
        have h2 : d ++ post = [] := (List.append_eq_nil.mp h1).2
        have h3 : d = [] := (List.append_eq_nil.mp h2).1
        rw [h3]
        decide)⟩

/-- C8: a consumed character that is not a letter, not an underscore, not
a digit and not one of the recognized symbol characters yields the Illegal
token; the scanner does not stop after it, and continues producing tokens
from the remaining input; "@;" lexes to Illegal, Semicolon. -/
theorem c8_illegal_char :
    (∀ c r, is_monkey_letter c = false → is_monkey_digit c = false →
      c ∉ [';', '(', ')', ',', '+', '-', '*', '/', '>', '<', '\x7b', '\x7d', '=', '!'] →
      emit c r = .tok Token.Illegal r) ∧
    (∀ c r, is_monkey_letter c = false → is_monkey_digit c = false →
      c ∉ [';', '(', ')', ',', '+', '-', '*', '/', '>', '<', '\x7b', '\x7d', '=', '!'] →
      is_monkey_whitespace c = false →
      tokenize (c :: r) = Option.map (fun ts => Token.Illegal :: ts) (tokenize r)) ∧
    lex "@;" = some [Token.Illegal, Token.Semicolon] :=
  ⟨emit_other, tokenize_illegal_step, by decide⟩

/-- C8 witness: the character '@' before remaining input ";". -/
theorem c8_illegal_char_witness :
    emit '@' (String.toList ";") = .tok Token.Illegal (String.toList ";") ∧
    tokenize ('@' :: String.toList ";") =
      Option.map (fun ts => Token.Illegal :: ts) (tokenize (String.toList ";")) :=
  ⟨c8_illegal_char.1 '@' (String.toList ";") (by decide) (by decide) (by decide),
    c8_illegal_char.2.1 '@' (String.toList ";") (by decide) (by decide) (by decide)
      (by decide)⟩

/-- C9: exhaustion contract: `next` returns the exhaustion signal exactly
when the remaining input is empty or all whitespace (so such inputs yield
zero tokens), and the EOF token variant is never returned by any call. -/
theorem c9_exhaustion :
    (∀ input, next input = .eof ↔ allWs input) ∧
    (∀ input, allWs input → tokenize input = some []) ∧
    (∀ input t rest, next input = .tok t rest → t ≠ Token.EOF) := by
  refine ⟨next_eof_iff, ?_, next_not_eof⟩
  intro input hall
  rw [tokenize_eq input, (next_eof_iff input).mpr hall]

/-- C9 witness: a whitespace-only input and a token-producing input. -/
theorem c9_exhaustion_witness :
    next (String.toList " ") = .eof ∧
    tokenize (String.toList "\t\n ") = some [] ∧
    Token.Ident "x" ≠ Token.EOF :=
  ⟨(c9_exhaustion.1 (String.toList " ")).mpr (by decide),
    c9_exhaustion.2.1 (String.toList "\t\n ") (by decide),
    c9_exhaustion.2.2 (String.toList "x") (Token.Ident "x") [] (by decide)⟩

/-- C10: progress and finiteness: every `next` call producing a token
consumes at least one character; whitespace skipping consumes at least
the skipped characters and accumulation consumes at most the remaining
input; hence a produced token sequence has at most as many tokens as the
input has characters. -/
theorem c10_progress :
    (∀ input t rest, next input = .tok t rest → rest.length < input.length) ∧
    (∀ l c r, skip_ws l = some (c, r) → r.length < l.length) ∧
    (∀ (test : Char → Bool) l, (takeWhileList test l).2.length ≤ l.length) ∧
    (∀ input toks, tokenize input = some toks → toks.length ≤ input.length) := by
  refine ⟨next_tok_length, skip_ws_length, takeWhileList_snd_length, ?_⟩
  intro input toks htoks
  exact (tokenize_invariants_aux input.length input (le_refl _) toks htoks).1

/-- C10 witness: the identifier token of "ab" consumes both characters. -/
theorem c10_progress_witness :
    ([] : List Char).length < (String.toList "ab").length ∧
    ([Token.Ident "ab"] : List Token).length ≤ (String.toList "ab").length :=
  ⟨c10_progress.1 (String.toList "ab") (Token.Ident "ab") [] (by decide),
    c10_progress.2.2.2 (String.toList "ab") [Token.Ident "ab"] (by decide)⟩

end MonkeyLexer
